import Mathlib

/-!
Shallow embedding of the head-direction analysis pipeline
(`head_direction/core.py` and `head_direction/utils.py`).

Numpy float arrays are modelled as `List FpVal` where `FpVal` carries the
IEEE special values that the pipeline can produce (`nan` from 0/0, `±inf`
from x/0), and as `List ℝ` where the source values are provably finite.
Fallible numpy calls (shape mismatches, non-monotonic histogram bins,
too-large smoothing windows, empty convolution kernels, too-short gradient
inputs) are modelled with `Except HDError`.
-/

noncomputable section
open Classical List

/-- A numpy double: a finite real, `nan`, `+inf` or `-inf`. -/
inductive FpVal where
  | nan : FpVal
  | inf : FpVal
  | neginf : FpVal
  | num : ℝ → FpVal

/-- `np.isnan`. -/
def FpVal.isNan : FpVal → Bool
  | .nan => true
  | .inf => false
  | .neginf => false
  | .num _ => false

/-- The real value of a finite `FpVal` (0 for the special values); used only
to state properties, never inside the embedded code. -/
def FpVal.toR : FpVal → ℝ
  | .nan => 0
  | .inf => 0
  | .neginf => 0
  | .num x => x

/-- `arr[np.isnan(arr)] = 0.0`, elementwise. -/
def nanToZero (v : FpVal) : FpVal := if v.isNan then .num 0 else v

/-- IEEE addition on numpy doubles. -/
def fpAdd : FpVal → FpVal → FpVal
  | .nan, .nan => .nan
  | .nan, .inf => .nan
  | .nan, .neginf => .nan
  | .nan, .num _ => .nan
  | .inf, .nan => .nan
  | .inf, .inf => .inf
  | .inf, .neginf => .nan
  | .inf, .num _ => .inf
  | .neginf, .nan => .nan
  | .neginf, .inf => .nan
  | .neginf, .neginf => .neginf
  | .neginf, .num _ => .neginf
  | .num _, .nan => .nan
  | .num _, .inf => .inf
  | .num _, .neginf => .neginf
  | .num a, .num b => .num (a + b)

/-- IEEE multiplication on numpy doubles. -/
def fpMul : FpVal → FpVal → FpVal
  | .nan, _ => .nan
  | .inf, .nan => .nan
  | .neginf, .nan => .nan
  | .num _, .nan => .nan
  | .inf, .inf => .inf
  | .inf, .neginf => .neginf
  | .neginf, .inf => .neginf
  | .neginf, .neginf => .inf
  | .inf, .num b => if 0 < b then .inf else if b < 0 then .neginf else .nan
  | .num a, .inf => if 0 < a then .inf else if a < 0 then .neginf else .nan
  | .neginf, .num b => if 0 < b then .neginf else if b < 0 then .inf else .nan
  | .num a, .neginf => if 0 < a then .neginf else if a < 0 then .inf else .nan
  | .num a, .num b => .num (a * b)

/-- IEEE division on numpy doubles. -/
def fpDiv : FpVal → FpVal → FpVal
  | .nan, _ => .nan
  | .inf, .nan => .nan
  | .neginf, .nan => .nan
  | .num _, .nan => .nan
  | .inf, .inf => .nan
  | .inf, .neginf => .nan
  | .neginf, .inf => .nan
  | .neginf, .neginf => .nan
  | .inf, .num b => if b < 0 then .neginf else .inf
  | .neginf, .num b => if b < 0 then .inf else .neginf
  | .num _, .inf => .num 0
  | .num _, .neginf => .num 0
  | .num a, .num b =>
      if b = 0 then (if a = 0 then .nan else if 0 < a then .inf else .neginf)
      else .num (a / b)

/-- `np.sqrt` on a numpy double (negative argument gives `nan`). -/
def fpSqrt : FpVal → FpVal
  | .nan => .nan
  | .inf => .inf
  | .neginf => .nan
  | .num x => if x < 0 then .nan else .num (Real.sqrt x)

/-- `np.arctan2(y, x)`; finite arguments land in `Complex.arg`, the IEEE
special-value corners follow the C99 atan2 table. -/
def fpAtan2 : FpVal → FpVal → FpVal
  | .nan, _ => .nan
  | .inf, .nan => .nan
  | .neginf, .nan => .nan
  | .num _, .nan => .nan
  | .inf, .inf => .num (Real.pi / 4)
  | .inf, .neginf => .num (3 * Real.pi / 4)
  | .neginf, .inf => .num (-(Real.pi / 4))
  | .neginf, .neginf => .num (-(3 * Real.pi / 4))
  | .inf, .num _ => .num (Real.pi / 2)
  | .neginf, .num _ => .num (-(Real.pi / 2))
  | .num _, .inf => .num 0
  | .num _, .neginf => .num Real.pi
  | .num y, .num x => .num (Complex.arg ⟨x, y⟩)

/-- Float `<` (false whenever an operand is `nan`). -/
def fpLt : FpVal → FpVal → Prop
  | .nan, _ => False
  | .inf, .nan => False
  | .neginf, .nan => False
  | .num _, .nan => False
  | .inf, _ => False
  | .neginf, .inf => True
  | .neginf, .neginf => False
  | .neginf, .num _ => True
  | .num _, .inf => True
  | .num _, .neginf => False
  | .num a, .num b => a < b

instance : Zero FpVal := ⟨.num 0⟩

instance : Add FpVal := ⟨fpAdd⟩

theorem fpVal_add_def (a b : FpVal) : a + b = fpAdd a b := rfl

theorem fpVal_zero_def : (0 : FpVal) = .num 0 := rfl

instance : AddCommMonoid FpVal where
  add_assoc a b c := by
    cases a <;> cases b <;> cases c <;> simp [fpVal_add_def, fpAdd, add_assoc]
  zero_add a := by
    cases a <;> simp [fpVal_add_def, fpVal_zero_def, fpAdd]
  add_zero a := by
    cases a <;> simp [fpVal_add_def, fpVal_zero_def, fpAdd]
  add_comm a b := by
    cases a <;> cases b <;> simp [fpVal_add_def, fpAdd, add_comm]
  nsmul := nsmulRec

/-- `np.sum` over a float vector. -/
def fpSum (l : List FpVal) : FpVal := l.sum

/-- `np.hypot`. -/
def hypot (a b : ℝ) : ℝ := Real.sqrt (a ^ 2 + b ^ 2)

/-- `np.arctan2` on finite doubles: the argument of the point `(x, y)`,
in `(-π, π]`. -/
def atan2 (y x : ℝ) : ℝ := Complex.arg ⟨x, y⟩

/-- `np.mean` of a vector (numpy's `nan` on an empty vector never feeds a
comparison that matters in this pipeline; the real model returns `0/0 = 0`). -/
def npMean (l : List ℝ) : ℝ := l.sum / l.length

/-- `np.std` (population standard deviation, `ddof = 0`). -/
def npStd (l : List ℝ) : ℝ := Real.sqrt (npMean (l.map (fun x => (x - npMean l) ^ 2)))

/-- numpy `%` on reals: `a - b * floor (a / b)`, in `[0, b)` for `b > 0`. -/
def npMod (a b : ℝ) : ℝ := a - b * ⌊a / b⌋

/-- `np.divide` of two finite doubles under `errstate(divide/invalid = ignore)`:
`0/0` is `nan`, `±x/0` is `±inf`. -/
def npDivide (a b : ℝ) : FpVal :=
  if b = 0 then (if a = 0 then .nan else if 0 < a then .inf else .neginf)
  else .num (a / b)

/-- `np.diff`. -/
def npDiff (l : List ℝ) : List ℝ := List.zipWith (fun a b => b - a) l l.tail

/-- `np.linspace a b n` (endpoint included). -/
def linspace (a b : ℝ) (n : ℕ) : List ℝ :=
  List.ofFn (fun i : Fin n => a + (b - a) * i / (n - 1 : ℕ))

/-- Boolean-mask indexing `arr[mask]`. -/
def boolMask (l : List ℝ) (mask : List Bool) : List ℝ :=
  (l.zip mask).filterMap (fun p => if p.2 then some p.1 else none)

/-- `np.searchsorted(edges, v, side := right)` for sorted `edges`: the number
of edges `≤ v`. -/
def searchsortedRight (edges : List ℝ) (v : ℝ) : ℕ :=
  (edges.filter (fun e => decide (e ≤ v))).length

/-- The histogram bin a value falls in, `np.histogram` conventions: bins are
`[e_i, e_{i+1})`, the last bin is closed, out-of-range values fall nowhere. -/
def binIndexOf (edges : List ℝ) (v : ℝ) : Option ℕ :=
  if edges.length < 2 then none
  else if v < edges.getD 0 0 ∨ edges.getD (edges.length - 1) 0 < v then none
  else if v = edges.getD (edges.length - 1) 0 then some (edges.length - 2)
  else some (searchsortedRight edges v - 1)

/-- `np.histogram(values, bins := edges, weights := weights).0` for monotone
`edges`: per bin, the sum of the weights of the values falling in it. -/
def histWeighted (values weights edges : List ℝ) : List ℝ :=
  List.ofFn (fun b : Fin (edges.length - 1) =>
    ∑ k ∈ Finset.range values.length,
      if binIndexOf edges (values.getD k 0) = some (b : ℕ) then weights.getD k 0 else 0)

/-- The `ValueError`s the pipeline can raise, with the data their messages
carry. -/
inductive HDError where
  | shapeMismatch : ℕ → ℕ → HDError
  | binsNotMonotonic : HDError
  | invalidWindow : ℕ → ℕ → HDError
  | emptyKernel : HDError
  | gradientShape : HDError
deriving DecidableEq

/-- Full convolution `np.convolve(a, v)`: entry `k` sums `a[j] * v[k-j]` over
the index pairs in range (the zero padding is implicit in the loop bounds,
exactly as in numpy's C kernel). -/
def convFull (a v : List FpVal) : List FpVal :=
  List.ofFn (fun k : Fin (a.length + v.length - 1) =>
    ∑ j ∈ Finset.range a.length,
      if j ≤ (k : ℕ) ∧ (k : ℕ) - j < v.length then
        fpMul (a.getD j 0) (v.getD ((k : ℕ) - j) 0)
      else 0)

/-- `np.convolve(a, v, mode := same)`: the centered `max |a| |v|` entries of
the full convolution. -/
def convSame (a v : List FpVal) : List FpVal :=
  ((convFull a v).drop ((min a.length v.length - 1) / 2)).take (max a.length v.length)

/-- `moving_average` (utils.py): replace `nan` by 0, reject a window larger
than the data (and, as `np.convolve` does, an empty kernel), circularly pad
with `window` entries on both sides, convolve with the normalized boxcar in
`same` mode and slice `[window : -window]`. -/
def moving_average (data : List FpVal) (window_size : ℕ) : Except HDError (List FpVal) :=
  let arr := data.map nanToZero
  if arr.length < window_size then .error (.invalidWindow window_size arr.length)
  else if window_size = 0 then .error .emptyKernel
  else
    let padded := arr.drop (arr.length - window_size) ++ arr ++ arr.take window_size
    let kernel := List.replicate window_size (FpVal.num (1 / (window_size : ℝ)))
    .ok (((convSame padded kernel).drop window_size).take arr.length)

/-- Per-frame spike counts: histogram of the spike times over the timestamp
vector as bin edges (`N-1` counts), padded with a trailing 0. -/
def spikesPerFrame (spike_times time_stamps : List ℝ) : List ℝ :=
  histWeighted spike_times (List.replicate spike_times.length 1) time_stamps ++ [0]

/-- Per-frame durations `np.diff(time_stamps)`, padded with a trailing 0. -/
def dtPerFrame (time_stamps : List ℝ) : List ℝ := npDiff time_stamps ++ [0]

/-- The angular bin edges `np.linspace(0, 2π, num_bins + 1)`. -/
def angleEdges (num_bins : ℕ) : List ℝ := linspace 0 (2 * Real.pi) (num_bins + 1)

/-- Per angular bin, the summed spike counts of the samples falling in it. -/
def spikesPerAngle (spike_times angle_samples time_stamps : List ℝ) (num_bins : ℕ) : List ℝ :=
  histWeighted angle_samples (spikesPerFrame spike_times time_stamps) (angleEdges num_bins)

/-- Per angular bin, the total occupancy duration of the samples falling in
it. -/
def timePerAngle (angle_samples time_stamps : List ℝ) (num_bins : ℕ) : List ℝ :=
  histWeighted angle_samples (dtPerFrame time_stamps) (angleEdges num_bins)

/-- The unsmoothed tuning curve: elementwise `np.divide` of spike sums by
occupancy sums (`0/0` gives `nan`). -/
def rawTuningCurve (spike_times angle_samples time_stamps : List ℝ) (num_bins : ℕ) :
    List FpVal :=
  List.zipWith npDivide (spikesPerAngle spike_times angle_samples time_stamps num_bins)
    (timePerAngle angle_samples time_stamps num_bins)

/-- The angular bin centers `angle_edges[:-1] + np.diff(angle_edges) / 2`. -/
def hdCenters (num_bins : ℕ) : List ℝ :=
  List.zipWith (fun e d => e + d / 2) (angleEdges num_bins).dropLast (npDiff (angleEdges num_bins))

/-- `head_direction_rate` (core.py): check the angle/timestamp shapes, bin
spikes over the timestamps (`np.histogram` validates that its bin edges never
decrease), bin the per-frame counts and durations over the angular bins
(their `linspace` edges are non-decreasing, so that validation never fires
for them), divide, and smooth when a positive window is requested. -/
def head_direction_rate (spike_times angle_samples time_stamps : List ℝ)
    (num_bins smoothing_window : ℕ) : Except HDError (List ℝ × List FpVal) :=
  if angle_samples.length ≠ time_stamps.length then
    .error (.shapeMismatch angle_samples.length time_stamps.length)
  else if ¬ time_stamps.Chain' (· ≤ ·) then .error .binsNotMonotonic
  else
    match (if 0 < smoothing_window then
        moving_average (rawTuningCurve spike_times angle_samples time_stamps num_bins)
          smoothing_window
      else .ok (rawTuningCurve spike_times angle_samples time_stamps num_bins)) with
    | .error e => .error e
    | .ok tc => .ok (hdCenters num_bins, tc)

/-- The inter-marker distances of `head_direction`:
`np.hypot(x2 - x1, y1 - y2)`. -/
def hdDistances (led1_x led1_y led2_x led2_y : List ℝ) : List ℝ :=
  List.zipWith hypot (List.zipWith (· - ·) led2_x led1_x) (List.zipWith (· - ·) led1_y led2_y)

/-- The rejection cutoff of `head_direction`: `mean(d) - threshold * std(d)`. -/
def hdCutoff (led1_x led1_y led2_x led2_y : List ℝ) (std_filter_threshold : ℝ) : ℝ :=
  npMean (hdDistances led1_x led1_y led2_x led2_y) -
    std_filter_threshold * npStd (hdDistances led1_x led1_y led2_x led2_y)

/-- `head_direction` (core.py): filter every sample whose inter-marker
distance is not strictly above `mean - threshold * std`, compute
`arctan2(y1 - y2, x1 - x2)` on the survivors, subtract the offset and wrap
into `[0, 2π)`. -/
def head_direction (led1_x led1_y led2_x led2_y time_stamps : List ℝ)
    (std_filter_threshold offset : ℝ) : List ℝ × List ℝ :=
  let distances := hdDistances led1_x led1_y led2_x led2_y
  let r_mean := npMean distances
  let r_std := npStd distances
  let valid_mask := distances.map (fun d => decide (r_mean - std_filter_threshold * r_std < d))
  let x1 := boolMask led1_x valid_mask
  let y1 := boolMask led1_y valid_mask
  let x2 := boolMask led2_x valid_mask
  let y2 := boolMask led2_y valid_mask
  let clean_time_stamps := boolMask time_stamps valid_mask
  let dx := List.zipWith (· - ·) x1 x2
  let dy := List.zipWith (· - ·) y1 y2
  let angles_rad := List.zipWith (fun yv xv => atan2 yv xv) dy dx
  let angles_rad := angles_rad.map (fun a => a - offset)
  let angles_rad := angles_rad.map (fun a => npMod a (2 * Real.pi))
  (angles_rad, clean_time_stamps)

/-- The sum of the non-`nan` rates of a tuning curve, as a real number; used
to state when `head_direction_score` degenerates. -/
def validRateSum (tuning_curve : List FpVal) : ℝ :=
  ((tuning_curve.filter (fun r => !r.isNan)).map FpVal.toR).sum

/-- `head_direction_score` (core.py): drop `nan` rates, return `(nan, nan)`
when the remaining rates sum to (float) zero, otherwise the rate-weighted
circular mean angle (wrapped into `[0, 2π)`) and mean vector length. -/
def head_direction_score (angle_bins : List ℝ) (tuning_curve : List FpVal) : FpVal × FpVal :=
  let valid := (angle_bins.zip tuning_curve).filter (fun p => !p.2.isNan)
  let angles := valid.map Prod.fst
  let rates := valid.map Prod.snd
  if fpSum rates = .num 0 then (.nan, .nan)
  else
    let rx := fpSum (List.zipWith (fun r a => fpMul r (.num (Real.cos a))) rates angles)
    let ry := fpSum (List.zipWith (fun r a => fpMul r (.num (Real.sin a))) rates angles)
    let total_rate := fpSum rates
    let mean_vector_length := fpDiv (fpSqrt (fpAdd (fpMul rx rx) (fpMul ry ry))) total_rate
    let mean_angle := fpAtan2 ry rx
    let mean_angle :=
      if fpLt mean_angle (.num 0) then fpAdd mean_angle (.num (2 * Real.pi)) else mean_angle
    (mean_angle, mean_vector_length)

/-- `np.gradient(f, t)` for 1-D data of length at least 2: one-sided
differences at the ends, numpy's weighted central difference for non-uniform
spacing in the interior. -/
def npGradient (f t : List ℝ) : List ℝ :=
  List.ofFn (fun i : Fin f.length =>
    if f.length < 2 then 0
    else if (i : ℕ) = 0 then (f.getD 1 0 - f.getD 0 0) / (t.getD 1 0 - t.getD 0 0)
    else if (i : ℕ) = f.length - 1 then
      (f.getD (f.length - 1) 0 - f.getD (f.length - 2) 0) /
        (t.getD (f.length - 1) 0 - t.getD (f.length - 2) 0)
    else
      (-(t.getD ((i : ℕ) + 1) 0 - t.getD (i : ℕ) 0) /
          ((t.getD (i : ℕ) 0 - t.getD ((i : ℕ) - 1) 0) *
            ((t.getD (i : ℕ) 0 - t.getD ((i : ℕ) - 1) 0) +
              (t.getD ((i : ℕ) + 1) 0 - t.getD (i : ℕ) 0)))) * f.getD ((i : ℕ) - 1) 0 +
        (((t.getD ((i : ℕ) + 1) 0 - t.getD (i : ℕ) 0) -
            (t.getD (i : ℕ) 0 - t.getD ((i : ℕ) - 1) 0)) /
          ((t.getD (i : ℕ) 0 - t.getD ((i : ℕ) - 1) 0) *
            (t.getD ((i : ℕ) + 1) 0 - t.getD (i : ℕ) 0))) * f.getD (i : ℕ) 0 +
        ((t.getD (i : ℕ) 0 - t.getD ((i : ℕ) - 1) 0) /
          ((t.getD ((i : ℕ) + 1) 0 - t.getD (i : ℕ) 0) *
            ((t.getD (i : ℕ) 0 - t.getD ((i : ℕ) - 1) 0) +
              (t.getD ((i : ℕ) + 1) 0 - t.getD (i : ℕ) 0)))) * f.getD ((i : ℕ) + 1) 0)

/-- The per-sample speed of `get_alignment_offset`:
`np.hypot(np.gradient(x, t), np.gradient(y, t))`. -/
def gaoSpeed (pos_x pos_y time_stamps : List ℝ) : List ℝ :=
  List.zipWith hypot (npGradient pos_x time_stamps) (npGradient pos_y time_stamps)

/-- `get_alignment_offset` (utils.py). `np.gradient` refuses arrays with
fewer than two samples or a mismatched coordinate array, modelled by the
leading shape check; with fewer than 10 samples moving faster than
`min_speed` the offset is 0.0, otherwise it is the angle of the circular
mean of `exp(i * (head - movement))` over the moving samples. -/
def get_alignment_offset (angle_samples pos_x pos_y time_stamps : List ℝ)
    (min_speed : ℝ) : Except HDError ℝ :=
  if pos_x.length < 2 ∨ pos_y.length < 2 ∨ pos_x.length ≠ time_stamps.length ∨
      pos_y.length ≠ time_stamps.length then .error .gradientShape
  else
    let vx := npGradient pos_x time_stamps
    let vy := npGradient pos_y time_stamps
    let speed := List.zipWith hypot vx vy
    let movement_angle := List.zipWith (fun yv xv => atan2 yv xv) vy vx
    let movement_angle := movement_angle.map (fun a => if a < 0 then a + 2 * Real.pi else a)
    let moving_mask := speed.map (fun s => decide (min_speed < s))
    if moving_mask.count true < 10 then .ok 0
    else
      let valid_head := boolMask angle_samples moving_mask
      let valid_move := boolMask movement_angle moving_mask
      let diffs := List.zipWith (· - ·) valid_head valid_move
      let mean_vector := (diffs.map (fun d => Complex.exp (d * Complex.I))).sum /
        (diffs.length : ℂ)
      .ok (Complex.arg mean_vector)

/-- The closed form of one entry of the circular moving average: the mean of
the `w` wrapped-around entries that numpy's centered (same-mode) boxcar
covers at output position `i`. -/
def maEntry (arr : List FpVal) (w i : ℕ) : FpVal :=
  ∑ m ∈ Finset.range w,
    fpMul (arr.getD ((i + arr.length + (w - 1) / 2 - m) % arr.length) 0)
      (.num (1 / (w : ℝ)))

theorem conv_sum_reindex {M : Type} [AddCommMonoid M] (f : ℕ → M) (N w k : ℕ)
    (hw : w ≤ k) (hk : k < N) :
    (∑ j ∈ Finset.range N, if j ≤ k ∧ k - j < w then f j else 0) =
      ∑ m ∈ Finset.range w, f (k - m) := by
  rw [← Finset.sum_filter]
  have hset : (Finset.range N).filter (fun j => j ≤ k ∧ k - j < w) =
      (Finset.range w).image (fun m => k - m) := by
    ext j
    simp only [Finset.mem_filter, Finset.mem_range, Finset.mem_image]
    constructor
    · rintro ⟨hjN, hjk, hkj⟩
      exact ⟨k - j, by omega, by omega⟩
    · rintro ⟨m, hm, rfl⟩
      omega
  rw [hset, Finset.sum_image]
  intro m1 hm1 m2 hm2 heq
  simp only [Finset.mem_range] at hm1 hm2
  omega

theorem padded_getD (arr : List FpVal) (w j : ℕ) (h1 : 1 ≤ w) (h2 : w ≤ arr.length)
    (hj : j < arr.length + 2 * w) :
    (arr.drop (arr.length - w) ++ arr ++ arr.take w).getD j 0 =
      arr.getD ((j + arr.length - w) % arr.length) 0 := by
  have hL : 1 ≤ arr.length := le_trans h1 h2
  have hdl : (arr.drop (arr.length - w)).length = w := by simp; omega
  have htl : (arr.take w).length = w := by simp; omega
  rcases lt_or_le j w with hcase | hcase
  · rw [List.getD_append _ _ _ _ (by simp [hdl]; omega)]
    rw [List.getD_append _ _ _ _ (by omega)]
    rw [List.getD_eq_getElem?_getD, List.getElem?_drop, ← List.getD_eq_getElem?_getD]
    have : (j + arr.length - w) % arr.length = arr.length - w + j := by
      rw [Nat.mod_eq_of_lt (by omega)]
      omega
    rw [this]
  · rcases lt_or_le j (w + arr.length) with hcase2 | hcase2
    · rw [List.getD_append _ _ _ _ (by simp [hdl]; omega)]
      rw [List.getD_append_right _ _ _ _ (by omega)]
      have : (j + arr.length - w) % arr.length = j - w := by
        have hrw : j + arr.length - w = (j - w) + arr.length := by omega
        rw [hrw, Nat.add_mod_right, Nat.mod_eq_of_lt (by omega)]
      rw [this, hdl]
    · rw [List.getD_append_right _ _ _ _ (by simp [hdl]; omega)]
      have hlen2 : (arr.drop (arr.length - w) ++ arr).length = w + arr.length := by
        simp [hdl, Nat.add_comm]
      rw [List.getD_eq_getElem?_getD, List.getElem?_take]
      rw [if_pos (show j - (arr.drop (arr.length - w) ++ arr).length < w by rw [hlen2]; omega)]
      rw [← List.getD_eq_getElem?_getD, hlen2]
      have : (j + arr.length - w) % arr.length = j - (w + arr.length) := by
        have hrw : j + arr.length - w = (j - (w + arr.length)) + arr.length + arr.length := by
          omega
        rw [hrw, Nat.add_mod_right, Nat.add_mod_right, Nat.mod_eq_of_lt (by omega)]
      rw [this]

theorem moving_average_eq_ofFn (data : List FpVal) (w : ℕ) (h1 : 1 ≤ w)
    (h2 : w ≤ data.length) :
    moving_average data w =
      .ok (List.ofFn (fun i : Fin data.length => maEntry (data.map nanToZero) w i)) := by
  have hLarr : (data.map nanToZero).length = data.length := by simp
  set L := data.length with hLdef
  set arr := data.map nanToZero with harr
  set c := (w - 1) / 2 with hc
  set padded := arr.drop (arr.length - w) ++ arr ++ arr.take w with hpadded
  set kernel := List.replicate w (FpVal.num (1 / (w : ℝ))) with hkernel
  have hplen : padded.length = L + 2 * w := by simp [hpadded, hLarr]; omega
  have hklen : kernel.length = w := by simp [hkernel]
  have hfull : (convFull padded kernel).length = L + 3 * w - 1 := by
    simp [convFull, hplen, hklen]; omega
  have hsame : (convSame padded kernel).length = L + 2 * w := by
    rw [convSame, List.length_take, List.length_drop, hfull, hplen, hklen]
    omega
  rw [moving_average]
  rw [if_neg (by simp only [List.length_map]; omega), if_neg (by omega)]
  show Except.ok (((convSame padded kernel).drop w).take arr.length) =
    Except.ok (List.ofFn fun i : Fin data.length => maEntry arr w i)
  have hcw : c ≤ w - 1 := by rw [hc]; omega
  congr 1
  apply List.ext_getElem?
  intro i
  rcases lt_or_le i L with hiL | hiL
  · rw [List.getElem?_take, if_pos (show i < arr.length by omega), List.getElem?_drop]
    simp only [convSame]
    rw [List.getElem?_take,
      if_pos (show w + i < max padded.length kernel.length by rw [hplen, hklen]; omega),
      List.getElem?_drop]
    have hidx : (min padded.length kernel.length - 1) / 2 + (w + i) = c + w + i := by
      rw [hplen, hklen]
      omega
    rw [hidx]
    simp only [convFull]
    rw [List.getElem?_ofFn]
    simp only [List.ofFnNthVal]
    rw [dif_pos (show c + w + i < padded.length + kernel.length - 1 by rw [hplen, hklen]; omega)]
    rw [List.getElem?_ofFn]
    simp only [List.ofFnNthVal]
    rw [dif_pos (show i < data.length by omega)]
    congr 1
    show (∑ j ∈ Finset.range padded.length,
        if j ≤ c + w + i ∧ c + w + i - j < kernel.length then
          fpMul (padded.getD j 0) (kernel.getD (c + w + i - j) 0)
        else 0) = maEntry arr w i
    have e3 : ∀ j ∈ Finset.range padded.length,
        (if j ≤ c + w + i ∧ c + w + i - j < kernel.length then
          fpMul (padded.getD j 0) (kernel.getD (c + w + i - j) 0) else 0) =
        (if j ≤ c + w + i ∧ c + w + i - j < w then
          fpMul (padded.getD j 0) (FpVal.num (1 / (w : ℝ))) else 0) := by
      intro j hj
      rw [hklen]
      rcases Classical.em (j ≤ c + w + i ∧ c + w + i - j < w) with hcond | hcond
      · rw [if_pos hcond, if_pos hcond]
        congr 1
        rw [hkernel, List.getD_eq_getElem?_getD, List.getElem?_replicate, if_pos hcond.2]
        rfl
      · rw [if_neg hcond, if_neg hcond]
    rw [Finset.sum_congr rfl e3, hplen]
    have e4 := conv_sum_reindex (fun j => fpMul (padded.getD j 0) (FpVal.num (1 / (w : ℝ))))
      (L + 2 * w) w (c + w + i) (by omega) (by omega)
    simp only [] at e4
    rw [e4, maEntry]
    apply Finset.sum_congr rfl
    intro m hm
    simp only [Finset.mem_range] at hm
    rw [hpadded, padded_getD arr w (c + w + i - m) h1 (by omega) (by omega), hLarr]
    have hnum : c + w + i - m + L - w = i + L + (w - 1) / 2 - m := by omega
    rw [hnum]
  · rw [List.getElem?_eq_none (by simp only [List.length_take, List.length_drop, hsame]; omega),
      List.getElem?_eq_none (by simp only [List.length_ofFn]; omega)]

theorem getD_rotate (l : List FpVal) (n i : ℕ) (hi : i < l.length) :
    (l.rotate n).getD i 0 = l.getD ((i + n) % l.length) 0 := by
  have h1 : i < (l.rotate n).length := by rw [List.length_rotate]; omega
  rw [List.getD_eq_getElem?_getD, List.getD_eq_getElem?_getD,
    List.getElem?_eq_getElem h1, List.getElem_rotate,
    List.getElem?_eq_getElem (show (i + n) % l.length < l.length from Nat.mod_lt _ (by omega))]

theorem maEntry_rotate (arr : List FpVal) (w k i : ℕ) (h1 : 1 ≤ w) (h2 : w ≤ arr.length)
    (hi : i < arr.length) :
    maEntry (arr.rotate k) w i = maEntry arr w ((i + k) % arr.length) := by
  rw [maEntry, maEntry, List.length_rotate]
  apply Finset.sum_congr rfl
  intro m hm
  simp only [Finset.mem_range] at hm
  have hL : 1 ≤ arr.length := le_trans h1 h2
  congr 1
  rw [getD_rotate arr k _ (Nat.mod_lt _ (by omega))]
  congr 1
  rw [Nat.mod_add_mod]
  have e2 : (i + k) % arr.length + arr.length + (w - 1) / 2 - m =
      (i + k) % arr.length + (arr.length + (w - 1) / 2 - m) := by omega
  rw [e2, Nat.mod_add_mod]
  congr 1
  omega

theorem moving_average_ok_length (v : List FpVal) (w : ℕ) (h1 : 1 ≤ w) (h2 : w ≤ v.length) :
    ∃ out, moving_average v w = .ok out ∧ out.length = v.length := by
  refine ⟨_, moving_average_eq_ofFn v w h1 h2, ?_⟩
  simp

theorem moving_average_error_iff (v : List FpVal) (w : ℕ) :
    (∃ e, moving_average v w = .error e) ↔ (v.length < w ∨ w = 0) := by
  constructor
  · intro he
    by_contra hcon
    push_neg at hcon
    obtain ⟨hlw, hw0⟩ := hcon
    obtain ⟨e, he⟩ := he
    rw [moving_average_eq_ofFn v w (by omega) (by omega)] at he
    exact Except.noConfusion he
  · intro h
    rcases Classical.em (v.length < w) with hlt | hlt
    · refine ⟨.invalidWindow w v.length, ?_⟩
      simp only [moving_average, List.length_map]
      rw [if_pos hlt]
    · have hw0 : w = 0 := by omega
      subst hw0
      refine ⟨.emptyKernel, ?_⟩
      simp only [moving_average, List.length_map]
      rw [if_neg (by omega)]
      simp

theorem getD_replicate_num_zero (n j : ℕ) :
    (List.replicate n (FpVal.num 0)).getD j 0 = FpVal.num 0 := by
  rw [List.getD_eq_getElem?_getD, List.getElem?_replicate]
  rcases Classical.em (j < n) with h | h
  · rw [if_pos h]
    rfl
  · rw [if_neg h]
    rfl

theorem maEntry_replicate_zero (n w i : ℕ) :
    maEntry (List.replicate n (FpVal.num 0)) w i = FpVal.num 0 := by
  rw [maEntry]
  have hterm : ∀ m ∈ Finset.range w,
      fpMul ((List.replicate n (FpVal.num 0)).getD
        ((i + (List.replicate n (FpVal.num 0)).length + (w - 1) / 2 - m) %
          (List.replicate n (FpVal.num 0)).length) 0) (FpVal.num (1 / (w : ℝ))) =
      (0 : FpVal) := by
    intro m hm
    rw [getD_replicate_num_zero]
    simp [fpMul, fpVal_zero_def]
  rw [Finset.sum_congr rfl hterm, Finset.sum_const_zero, fpVal_zero_def]

theorem moving_average_replicate_nan (n w : ℕ) (h1 : 1 ≤ w) (h2 : w ≤ n) :
    moving_average (List.replicate n FpVal.nan) w = .ok (List.replicate n (FpVal.num 0)) := by
  rw [moving_average_eq_ofFn _ w h1 (by simp only [List.length_replicate]; omega)]
  congr 1
  have hmap : (List.replicate n FpVal.nan).map nanToZero = List.replicate n (FpVal.num 0) := by
    rw [List.map_replicate]
    rfl
  simp only [hmap, maEntry_replicate_zero, List.length_replicate]
  exact List.ofFn_const n (FpVal.num 0)

/-- C4: corrected. `moving_average` raises exactly when the window exceeds the
vector length OR the window is 0 (`np.convolve` refuses an empty kernel), and
for `1 ≤ W ≤ L` it returns a vector of length exactly `L`. -/
theorem moving_average_window_error_and_length (v : List FpVal) (w : ℕ) :
    ((∃ e, moving_average v w = .error e) ↔ (v.length < w ∨ w = 0)) ∧
    (1 ≤ w → w ≤ v.length → ∃ out, moving_average v w = .ok out ∧ out.length = v.length) :=
  ⟨moving_average_error_iff v w, fun h1 h2 => moving_average_ok_length v w h1 h2⟩

/-- C4 counterexample: with window 0 on a vector of length 1 the window does
not exceed the vector length, yet `moving_average` raises (the empty
convolution kernel), refuting the claimed "error if and only if the window
exceeds the length". -/
theorem moving_average_zero_window_errors :
    moving_average [FpVal.num 1] 0 = .error .emptyKernel ∧ ¬ (([FpVal.num 1] : List FpVal).length < 0) := by
  constructor
  · simp only [moving_average, List.length_map, List.length_cons, List.length_nil]
    rw [if_neg (by omega)]
    simp
  · omega

/-- C5: confirmed. The circular moving average is rotation-equivariant:
smoothing the cyclic left-rotation of `v` by `k` equals rotating the
smoothing of `v` by `k`, for any window `1 ≤ W ≤ L`. -/
theorem moving_average_rotate (v : List FpVal) (w k : ℕ) (h1 : 1 ≤ w) (h2 : w ≤ v.length) :
    moving_average (v.rotate k) w = (moving_average v w).map (fun out => out.rotate k) := by
  rw [moving_average_eq_ofFn v w h1 h2,
    moving_average_eq_ofFn (v.rotate k) w h1 (by rw [List.length_rotate]; omega)]
  show _ = Except.ok ((List.ofFn fun i : Fin v.length => maEntry (v.map nanToZero) w i).rotate k)
  congr 1
  apply List.ext_getElem?
  intro i
  rcases lt_or_le i v.length with hi | hi
  · rw [List.getElem?_ofFn]
    simp only [List.ofFnNthVal]
    rw [dif_pos (show i < (v.rotate k).length by rw [List.length_rotate]; omega)]
    rw [List.getElem?_eq_getElem (show i <
      ((List.ofFn fun i : Fin v.length => maEntry (v.map nanToZero) w i).rotate k).length by
        simp only [List.length_rotate, List.length_ofFn]; omega)]
    rw [List.getElem_rotate]
    simp only [List.length_ofFn]
    rw [List.getElem_ofFn]
    congr 1
    show maEntry ((v.rotate k).map nanToZero) w i = maEntry (v.map nanToZero) w ((i + k) % v.length)
    have hmr : (v.rotate k).map nanToZero = (v.map nanToZero).rotate k := List.map_rotate _ _ _
    rw [hmr, maEntry_rotate (v.map nanToZero) w k i h1 (by simp only [List.length_map]; omega)
      (by simp only [List.length_map]; omega)]
    simp only [List.length_map]
  · rw [List.getElem?_eq_none (by simp only [List.length_ofFn, List.length_rotate]; omega),
      List.getElem?_eq_none (by simp only [List.length_rotate, List.length_ofFn]; omega)]

/-- C5 witness: the rotation equivariance at the concrete vector
`[1, 2]`, window 1, rotation 1. -/
theorem moving_average_rotate_witness :
    moving_average (([FpVal.num 1, FpVal.num 2] : List FpVal).rotate 1) 1 =
      (moving_average [FpVal.num 1, FpVal.num 2] 1).map (fun out => out.rotate 1) :=
  moving_average_rotate [FpVal.num 1, FpVal.num 2] 1 1 (by omega)
    (by simp only [List.length_cons, List.length_nil]; omega)

theorem npMod_npMod_sub (a o T : ℝ) (hT : T ≠ 0) :
    npMod (npMod a T - o) T = npMod (a - o) T := by
  rw [npMod, npMod, npMod]
  have hk : (a - T * ⌊a / T⌋ - o) / T = (a - o) / T - ⌊a / T⌋ := by
    field_simp
    ring
  rw [hk, Int.floor_sub_int]
  push_cast
  ring

/-- C3: confirmed. `head_direction` with offset `o` keeps exactly the same
surviving timestamps as with offset 0, and its angle stream is the offset-0
angle stream with `o` subtracted and the result wrapped into `[0, 2π)` by the
numpy modulo. -/
theorem head_direction_offset_equivariant (x1 y1 x2 y2 t : List ℝ) (thr o : ℝ) :
    (head_direction x1 y1 x2 y2 t thr o).2 = (head_direction x1 y1 x2 y2 t thr 0).2 ∧
    (head_direction x1 y1 x2 y2 t thr o).1 =
      (head_direction x1 y1 x2 y2 t thr 0).1.map (fun a => npMod (a - o) (2 * Real.pi)) := by
  constructor
  · rfl
  · simp only [head_direction]
    rw [List.map_map, List.map_map, List.map_map]
    have hfun : (fun a => npMod a (2 * Real.pi)) ∘ (fun a => a - o) =
        (((fun a => npMod (a - o) (2 * Real.pi)) ∘ (fun a => npMod a (2 * Real.pi))) ∘
          fun a => a - 0) := by
      funext a
      simp only [Function.comp_apply, sub_zero]
      rw [npMod_npMod_sub a o (2 * Real.pi) (by positivity)]
    rw [hfun]

theorem hypot_neg_left (a b : ℝ) : hypot (-a) b = hypot a b := by
  rw [hypot, hypot, neg_sq]

theorem hypot_neg_right (a b : ℝ) : hypot a (-b) = hypot a b := by
  rw [hypot, hypot, neg_sq]

/-- C9: confirmed. The distance vector `head_direction` filters on,
`hypot(x2 - x1, y1 - y2)`, equals both the spec's formula
`hypot(x1 - x2, y2 - y1)` and the symmetric Euclidean distance
`hypot(x1 - x2, y1 - y2)`: the sign asymmetry never changes the magnitude. -/
theorem head_direction_distance_symmetric (x1 y1 x2 y2 : List ℝ) :
    hdDistances x1 y1 x2 y2 =
      List.zipWith hypot (List.zipWith (· - ·) x1 x2) (List.zipWith (· - ·) y2 y1) ∧
    hdDistances x1 y1 x2 y2 =
      List.zipWith hypot (List.zipWith (· - ·) x1 x2) (List.zipWith (· - ·) y1 y2) := by
  induction x1 generalizing y1 x2 y2 with
  | nil =>
    rcases x2 with _ | ⟨c2, x2⟩ <;> simp [hdDistances]
  | cons a1 x1 ih =>
    rcases y1 with _ | ⟨b1, y1⟩
    · rcases x2 with _ | ⟨c2, x2⟩ <;> simp [hdDistances]
    rcases x2 with _ | ⟨c2, x2⟩
    · simp [hdDistances]
    rcases y2 with _ | ⟨d2, y2⟩
    · simp [hdDistances]
    obtain ⟨ih1, ih2⟩ := ih y1 x2 y2
    constructor
    · simp only [hdDistances, List.zipWith_cons_cons] at ih1 ⊢
      rw [ih1]
      have : hypot (c2 - a1) (b1 - d2) = hypot (a1 - c2) (d2 - b1) := by
        rw [show c2 - a1 = -(a1 - c2) by ring, hypot_neg_left,
          show b1 - d2 = -(d2 - b1) by ring, hypot_neg_right]
      rw [this]
    · simp only [hdDistances, List.zipWith_cons_cons] at ih2 ⊢
      rw [ih2]
      rw [show c2 - a1 = -(a1 - c2) by ring, hypot_neg_left]

theorem boolMask_cons (a : ℝ) (l : List ℝ) (b : Bool) (mask : List Bool) :
    boolMask (a :: l) (b :: mask) = if b then a :: boolMask l mask else boolMask l mask := by
  cases b <;> simp [boolMask, List.filterMap_cons]

theorem boolMask_eq_filter_map (l : List ℝ) (mask : List Bool) (h : mask.length = l.length) :
    boolMask l mask =
      ((List.range l.length).filter (fun i => mask.getD i false)).map (fun i => l.getD i 0) := by
  induction l generalizing mask with
  | nil =>
    cases mask with
    | nil => simp [boolMask]
    | cons b mask => simp at h
  | cons a l ih =>
    cases mask with
    | nil => simp at h
    | cons b mask =>
      have h' : mask.length = l.length := by simpa using h
      have hp : (fun i => ((b :: mask)[i]?).getD false) ∘ Nat.succ =
          (fun i => (mask[i]?).getD false) := by
        funext i
        simp
      have hf : (fun i => ((a :: l)[i]?).getD 0) ∘ Nat.succ = (fun i => (l[i]?).getD 0) := by
        funext i
        simp
      rw [boolMask_cons]
      cases b <;>
        simp [List.range_succ_eq_map, List.filter_cons, List.getD_cons_zero, List.filter_map,
          List.map_map, hp, hf, ih mask h']

theorem boolMask_all_false (l : List ℝ) (n : ℕ) : boolMask l (List.replicate n false) = [] := by
  induction l generalizing n with
  | nil => simp [boolMask]
  | cons a l ih =>
    cases n with
    | zero => simp [boolMask]
    | succ n =>
      rw [List.replicate_succ, boolMask_cons, if_neg (by simp)]
      exact ih n

theorem hdDistances_length (x1 y1 x2 y2 : List ℝ) (hy1 : y1.length = x1.length)
    (hx2 : x2.length = x1.length) (hy2 : y2.length = x1.length) :
    (hdDistances x1 y1 x2 y2).length = x1.length := by
  simp [hdDistances]
  omega

theorem hdConstantRejectsAll (x1 y1 x2 y2 t : List ℝ) (thr o c : ℝ)
    (hne : hdDistances x1 y1 x2 y2 ≠ [])
    (hall : ∀ d ∈ hdDistances x1 y1 x2 y2, d = c) :
    head_direction x1 y1 x2 y2 t thr o = ([], []) := by
  have hlen0 : (hdDistances x1 y1 x2 y2).length ≠ 0 := by
    simpa [List.length_eq_zero] using hne
  have hmean : npMean (hdDistances x1 y1 x2 y2) = c := by
    rw [npMean, List.sum_eq_card_nsmul _ c hall, nsmul_eq_mul]
    field_simp
  have hstd : npStd (hdDistances x1 y1 x2 y2) = 0 := by
    rw [npStd]
    have hz : (hdDistances x1 y1 x2 y2).map
        (fun x => (x - npMean (hdDistances x1 y1 x2 y2)) ^ 2) =
        List.replicate (hdDistances x1 y1 x2 y2).length 0 := by
      rw [List.eq_replicate_iff]
      refine ⟨by simp, ?_⟩
      intro b hb
      obtain ⟨x, hx, rfl⟩ := List.mem_map.1 hb
      rw [hall x hx, hmean]
      ring
    rw [hz]
    have hmz : npMean (List.replicate (hdDistances x1 y1 x2 y2).length (0 : ℝ)) = 0 := by
      simp [npMean]
    rw [hmz, Real.sqrt_zero]
  have hmask : (hdDistances x1 y1 x2 y2).map
      (fun d => decide (npMean (hdDistances x1 y1 x2 y2) -
        thr * npStd (hdDistances x1 y1 x2 y2) < d)) =
      List.replicate (hdDistances x1 y1 x2 y2).length false := by
    rw [List.eq_replicate_iff]
    refine ⟨by simp, ?_⟩
    intro b hb
    obtain ⟨x, hx, rfl⟩ := List.mem_map.1 hb
    rw [hall x hx, hmean, hstd]
    rw [show c - thr * 0 = c by ring]
    exact decide_eq_false (lt_irrefl c)
  simp only [head_direction, hmask, boolMask_all_false]
  simp

/-- The inter-marker distances of the concrete example configuration with the
two markers vertically one unit apart at every sample. -/
theorem hdDistances_example : hdDistances [0, 1] [0, 0] [0, 1] [1, 1] = [1, 1] := by
  simp only [hdDistances, List.zipWith_cons_cons, List.zipWith_nil_right, hypot]
  norm_num [Real.sqrt_one]

theorem npMean_example : npMean [1, 1] = 1 := by
  norm_num [npMean]

theorem npStd_example : npStd [1, 1] = 0 := by
  rw [npStd, npMean_example]
  have : ([(1 : ℝ), 1].map fun x => (x - 1) ^ 2) = [0, 0] := by
    norm_num
  rw [this]
  have : npMean [(0 : ℝ), 0] = 0 := by
    simp [npMean]
  rw [this, Real.sqrt_zero]

/-- C10: confirmed. When every inter-marker distance equals the same constant
(standard deviation zero), no distance strictly exceeds the mean, so
`head_direction` rejects every sample for any threshold and returns two empty
arrays. -/
theorem head_direction_constant_distances_empty (x1 y1 x2 y2 t : List ℝ) (thr o c : ℝ)
    (hne : hdDistances x1 y1 x2 y2 ≠ [])
    (hall : ∀ d ∈ hdDistances x1 y1 x2 y2, d = c) :
    head_direction x1 y1 x2 y2 t thr o = ([], []) :=
  hdConstantRejectsAll x1 y1 x2 y2 t thr o c hne hall

/-- C10 witness: a rigid marker pair at constant unit distance over two
samples is fully rejected, for an arbitrary threshold 7 and offset 3. -/
theorem head_direction_constant_distances_witness :
    head_direction [0, 1] [0, 0] [0, 1] [1, 1] [5, 6] 7 3 = ([], []) :=
  head_direction_constant_distances_empty [0, 1] [0, 0] [0, 1] [1, 1] [5, 6] 7 3 1
    (by rw [hdDistances_example]; simp)
    (by rw [hdDistances_example]; intro d hd; simpa using hd)

/-- C2 counterexample: with both distances exactly at the cutoff
`mean - threshold * std = 1`, the claim says the samples survive (distance
equals the cutoff), but `head_direction` rejects them all and returns two
empty arrays. -/
theorem head_direction_boundary_rejected :
    head_direction [0, 1] [0, 0] [0, 1] [1, 1] [5, 6] 2 0 = ([], []) ∧
    hdDistances [0, 1] [0, 0] [0, 1] [1, 1] = [1, 1] ∧
    hdCutoff [0, 1] [0, 0] [0, 1] [1, 1] 2 = 1 := by
  refine ⟨?_, hdDistances_example, ?_⟩
  · exact hdConstantRejectsAll [0, 1] [0, 0] [0, 1] [1, 1] [5, 6] 2 0 1
      (by rw [hdDistances_example]; simp)
      (by rw [hdDistances_example]; intro d hd; simpa using hd)
  · rw [hdCutoff, hdDistances_example, npMean_example, npStd_example]
    ring

/-- C2: corrected. A sample survives `head_direction`'s filter exactly when
its distance is strictly above `mean - threshold * std` — equality REJECTS
(the code tests `distances > cutoff`), contrary to the claim's
"equals-or-exceeds survives". The surviving timestamps are precisely the
timestamps at the strictly-above-cutoff indices, and (one-sidedness) for a
non-negative threshold any distance above the mean always passes the cutoff
test, so implausibly far marker pairs are never filtered. -/
theorem head_direction_filter_characterization (x1 y1 x2 y2 t : List ℝ) (thr o : ℝ)
    (hy1 : y1.length = x1.length) (hx2 : x2.length = x1.length) (hy2 : y2.length = x1.length)
    (ht : t.length = x1.length) :
    (head_direction x1 y1 x2 y2 t thr o).2 =
      ((List.range x1.length).filter
        (fun i => decide (hdCutoff x1 y1 x2 y2 thr < (hdDistances x1 y1 x2 y2).getD i 0))).map
        (fun i => t.getD i 0) ∧
    (0 ≤ thr → ∀ i, npMean (hdDistances x1 y1 x2 y2) < (hdDistances x1 y1 x2 y2).getD i 0 →
      hdCutoff x1 y1 x2 y2 thr < (hdDistances x1 y1 x2 y2).getD i 0) := by
  have hdl : (hdDistances x1 y1 x2 y2).length = x1.length :=
    hdDistances_length x1 y1 x2 y2 hy1 hx2 hy2
  constructor
  · simp only [head_direction]
    rw [boolMask_eq_filter_map t _ (by simp only [List.length_map, hdl, ht]), ht]
    congr 1
    apply List.filter_congr
    intro i hi
    simp only [List.mem_range] at hi
    rw [List.getD_eq_getElem?_getD, List.getElem?_map,
      List.getElem?_eq_getElem (show i < (hdDistances x1 y1 x2 y2).length by omega)]
    rw [List.getD_eq_getElem?_getD,
      List.getElem?_eq_getElem (show i < (hdDistances x1 y1 x2 y2).length by omega)]
    simp only [hdCutoff]
    rfl
  · intro hthr i hmean_lt
    have hstd0 : 0 ≤ npStd (hdDistances x1 y1 x2 y2) := Real.sqrt_nonneg _
    rw [hdCutoff]
    nlinarith [mul_nonneg hthr hstd0]

/-- C2 witness: the filter characterization at a concrete two-sample
trajectory with threshold 2 and offset 0. -/
theorem head_direction_filter_characterization_witness :
    (head_direction [0, 1] [0, 0] [0, 1] [1, 1] [5, 6] 2 0).2 =
      ((List.range ([(0 : ℝ), 1] : List ℝ).length).filter
        (fun i => decide (hdCutoff [0, 1] [0, 0] [0, 1] [1, 1] 2 <
          (hdDistances [0, 1] [0, 0] [0, 1] [1, 1]).getD i 0))).map
        (fun i => ([(5 : ℝ), 6] : List ℝ).getD i 0) ∧
    (0 ≤ (2 : ℝ) → ∀ i, npMean (hdDistances [0, 1] [0, 0] [0, 1] [1, 1]) <
        (hdDistances [0, 1] [0, 0] [0, 1] [1, 1]).getD i 0 →
      hdCutoff [0, 1] [0, 0] [0, 1] [1, 1] 2 <
        (hdDistances [0, 1] [0, 0] [0, 1] [1, 1]).getD i 0) :=
  head_direction_filter_characterization [0, 1] [0, 0] [0, 1] [1, 1] [5, 6] 2 0 rfl rfl rfl rfl

theorem moving_average_error_cases (v : List FpVal) (w : ℕ) (e : HDError)
    (h : moving_average v w = .error e) :
    e = .invalidWindow w v.length ∨ e = .emptyKernel := by
  simp only [moving_average, List.length_map] at h
  rcases Classical.em (v.length < w) with h1 | h1
  · rw [if_pos h1] at h
    left
    cases h
    rfl
  · rw [if_neg h1] at h
    rcases Classical.em (w = 0) with h2 | h2
    · rw [if_pos h2] at h
      right
      cases h
      rfl
    · rw [if_neg h2] at h
      exact Except.noConfusion h

/-- C6: corrected. `head_direction_rate` raises the shape error, whose payload
carries the two lengths, exactly when the angle stream and timestamp vector
differ in length; but that error is not the only invalid-argument error an
equal-length call can raise (see the counterexample), so the claimed
"if and only if" over all invalid-argument errors fails. -/
theorem head_direction_rate_shape_error_iff (s a t : List ℝ) (nb w : ℕ) :
    head_direction_rate s a t nb w = .error (.shapeMismatch a.length t.length) ↔
      a.length ≠ t.length := by
  constructor
  · intro h
    by_contra heq
    rw [head_direction_rate, if_neg (by omega)] at h
    rcases Classical.em (t.Chain' (· ≤ ·)) with hc | hc
    · rw [if_neg (not_not_intro hc)] at h
      cases hmatch : (if 0 < w then moving_average (rawTuningCurve s a t nb) w
          else Except.ok (rawTuningCurve s a t nb)) with
      | error e =>
        rw [hmatch] at h
        simp only at h
        have he : e = .shapeMismatch a.length t.length := by
          cases h
          rfl
        rcases Classical.em (0 < w) with hw | hw
        · rw [if_pos hw] at hmatch
          rcases moving_average_error_cases _ _ _ hmatch with h2 | h2 <;>
            simp [he] at h2
        · rw [if_neg hw] at hmatch
          exact Except.noConfusion hmatch
      | ok tc =>
        rw [hmatch] at h
        simp only at h
        exact Except.noConfusion h
    · rw [if_pos hc] at h
      cases h
  · intro hne
    rw [head_direction_rate, if_pos hne]

/-- C6 counterexample: with equal-length angle and timestamp vectors but a bin
count (1) smaller than the default smoothing window (4), the call still
raises an invalid-argument error — the smoothing-window error, not a shape
error — refuting "raises an invalid-argument error iff lengths differ". -/
theorem head_direction_rate_equal_length_error :
    head_direction_rate [] [0] [0] 1 4 = .error (.invalidWindow 4 1) := by
  rw [head_direction_rate, if_neg (by simp), if_neg (not_not_intro (List.chain'_singleton 0))]
  have hlen : (rawTuningCurve [] [0] [0] 1).length = 1 := by
    simp [rawTuningCurve, spikesPerAngle, timePerAngle, histWeighted, angleEdges, linspace]
  have hma : moving_average (rawTuningCurve [] [0] [0] 1) 4 = .error (.invalidWindow 4 1) := by
    simp only [moving_average, List.length_map, hlen]
    rw [if_pos (by omega)]
  rw [if_pos (by omega), hma]

/-- C6 witness: the shape-error characterization applied at a mismatched
input; the raised error carries both lengths (1 and 0). -/
theorem head_direction_rate_shape_error_witness :
    head_direction_rate [] [0] [] 1 0 = .error (.shapeMismatch 1 0) :=
  (head_direction_rate_shape_error_iff [] [0] [] 1 0).2 (by simp)

theorem histWeighted_getD (values weights edges : List ℝ) (b : ℕ) (hb : b < edges.length - 1) :
    (histWeighted values weights edges).getD b 0 =
      ∑ k ∈ Finset.range values.length,
        if binIndexOf edges (values.getD k 0) = some b then weights.getD k 0 else 0 := by
  rw [histWeighted, List.getD_eq_getElem?_getD, List.getElem?_ofFn, List.ofFnNthVal, dif_pos hb]
  rfl

theorem npDiff_getD (t : List ℝ) (k : ℕ) (hk : k < t.length - 1) :
    (npDiff t).getD k 0 = t.getD (k + 1) 0 - t.getD k 0 := by
  have hlen : (List.zipWith (fun a b => b - a) t t.tail).length = t.length - 1 := by
    simp
  rw [npDiff, List.getD_eq_getElem?_getD,
    List.getElem?_eq_getElem (show k < (List.zipWith (fun a b => b - a) t t.tail).length by
      rw [hlen]; omega),
    List.getElem_zipWith, List.getElem_tail,
    List.getD_eq_getElem t 0 (show k + 1 < t.length by omega),
    List.getD_eq_getElem t 0 (show k < t.length by omega)]
  rfl

theorem getD_singleton_zero (j : ℕ) : ([(0 : ℝ)]).getD j 0 = 0 := by
  cases j with
  | zero => rfl
  | succ j => rfl

theorem npDiff_length (t : List ℝ) : (npDiff t).length = t.length - 1 := by
  simp [npDiff]

theorem dtPerFrame_getD_cases (t : List ℝ) (k : ℕ) :
    (dtPerFrame t).getD k 0 =
      if k < t.length - 1 then t.getD (k + 1) 0 - t.getD k 0 else 0 := by
  rcases lt_or_le k (t.length - 1) with hk | hk
  · rw [if_pos hk, dtPerFrame, List.getD_append _ _ _ _ (by rw [npDiff_length]; omega)]
    exact npDiff_getD t k hk
  · rw [if_neg (by omega), dtPerFrame,
      List.getD_append_right _ _ _ _ (by rw [npDiff_length]; omega)]
    exact getD_singleton_zero _

theorem chain'_lt_getD (t : List ℝ) (h : t.Chain' (· < ·)) (k : ℕ) (hk : k + 1 < t.length) :
    t.getD k 0 < t.getD (k + 1) 0 := by
  have hg := List.chain'_iff_get.1 h k (by omega)
  rw [List.getD_eq_getElem t 0 (by omega), List.getD_eq_getElem t 0 (by omega)]
  simpa [List.get_eq_getElem] using hg

theorem spikesPerFrame_getD_of_ge (s t : List ℝ) (k : ℕ) (hk : t.length - 1 ≤ k) :
    (spikesPerFrame s t).getD k 0 = 0 := by
  have hlen : (histWeighted s (List.replicate s.length 1) t).length = t.length - 1 := by
    simp [histWeighted]
  rw [spikesPerFrame, List.getD_append_right _ _ _ _ (by omega)]
  exact getD_singleton_zero _

theorem angleEdges_length (nb : ℕ) : (angleEdges nb).length = nb + 1 := by
  simp [angleEdges, linspace]

/-- C1: corrected. Without smoothing (`smoothing_window = 0`) and with
strictly increasing timestamps, every angular bin with zero total occupancy
carries the missing-value marker `nan` in the returned tuning curve; with a
positive smoothing window (including the default 4) `moving_average` first
replaces every `nan` by 0, so the returned curve carries plain numbers there
instead (see the counterexample). -/
theorem head_direction_rate_unsmoothed_nan (s a t : List ℝ) (nb : ℕ)
    (hlen : a.length = t.length) (hmono : t.Chain' (· < ·))
    (centers : List ℝ) (tc : List FpVal)
    (hok : head_direction_rate s a t nb 0 = .ok (centers, tc))
    (b : ℕ) (hb : b < nb)
    (hocc : (timePerAngle a t nb).getD b 0 = 0) :
    tc.getD b (.num 0) = FpVal.nan := by
  rw [head_direction_rate, if_neg (by omega),
    if_neg (not_not_intro (hmono.imp (fun _ _ hab => le_of_lt hab))), if_neg (by omega)] at hok
  simp only [Except.ok.injEq, Prod.mk.injEq] at hok
  obtain ⟨-, htc⟩ := hok
  subst htc
  have hsl : (spikesPerAngle s a t nb).length = nb := by
    simp [spikesPerAngle, histWeighted, angleEdges_length]
  have htl : (timePerAngle a t nb).length = nb := by
    simp [timePerAngle, histWeighted, angleEdges_length]
  have hzipb : b < (List.zipWith npDivide (spikesPerAngle s a t nb)
      (timePerAngle a t nb)).length := by
    rw [List.length_zipWith, hsl, htl]
    omega
  rw [rawTuningCurve, List.getD_eq_getElem?_getD, List.getElem?_eq_getElem hzipb,
    List.getElem_zipWith]
  rw [← List.getD_eq_getElem (spikesPerAngle s a t nb) 0 (by omega),
    ← List.getD_eq_getElem (timePerAngle a t nb) 0 (by omega)]
  have hspa : (spikesPerAngle s a t nb).getD b 0 = 0 := by
    rw [spikesPerAngle, histWeighted_getD _ _ _ b (by rw [angleEdges_length]; omega)]
    rw [timePerAngle, histWeighted_getD _ _ _ b (by rw [angleEdges_length]; omega)] at hocc
    have hnonneg : ∀ k ∈ Finset.range a.length,
        0 ≤ (if binIndexOf (angleEdges nb) (a.getD k 0) = some b then
          (dtPerFrame t).getD k 0 else 0) := by
      intro k hk
      rcases Classical.em (binIndexOf (angleEdges nb) (a.getD k 0) = some b) with hbin | hbin
      · rw [if_pos hbin, dtPerFrame_getD_cases]
        rcases Classical.em (k < t.length - 1) with hklt | hklt
        · rw [if_pos hklt]
          have := chain'_lt_getD t hmono k (by omega)
          linarith
        · rw [if_neg hklt]
      · rw [if_neg hbin]
    have hall0 := (Finset.sum_eq_zero_iff_of_nonneg hnonneg).1 hocc
    apply Finset.sum_eq_zero
    intro k hk
    rcases Classical.em (binIndexOf (angleEdges nb) (a.getD k 0) = some b) with hbin | hbin
    · rw [if_pos hbin]
      have hdtk := hall0 k hk
      rw [if_pos hbin, dtPerFrame_getD_cases] at hdtk
      rcases Classical.em (k < t.length - 1) with hklt | hklt
      · rw [if_pos hklt] at hdtk
        have := chain'_lt_getD t hmono k (by omega)
        linarith
      · exact spikesPerFrame_getD_of_ge s t k (by omega)
    · rw [if_neg hbin]
  rw [hspa, hocc]
  show npDivide 0 0 = FpVal.nan
  rw [npDivide, if_pos rfl, if_pos rfl]

theorem histWeighted_zero_weights (values weights edges : List ℝ)
    (hw : ∀ k, weights.getD k 0 = 0) :
    histWeighted values weights edges = List.replicate (edges.length - 1) 0 := by
  rw [histWeighted]
  have hfn : (fun b : Fin (edges.length - 1) =>
      ∑ k ∈ Finset.range values.length,
        if binIndexOf edges (values.getD k 0) = some (b : ℕ) then weights.getD k 0 else 0) =
      fun _ : Fin (edges.length - 1) => (0 : ℝ) := by
    funext b
    apply Finset.sum_eq_zero
    intro k hk
    rw [hw k]
    exact ite_self 0
  rw [hfn]
  exact List.ofFn_const _ _

theorem dtPerFrame_pair_zero : dtPerFrame [0, 0] = [0, 0] := by
  norm_num [dtPerFrame, npDiff]

theorem spikesPerFrame_empty_pair : spikesPerFrame [] [0, 0] = [0, 0] := by
  rw [spikesPerFrame]
  have h : histWeighted [] (List.replicate ([] : List ℝ).length 1) [0, 0] = [0] := by
    simp [histWeighted, List.ofFn_succ]
  rw [h]
  rfl

theorem getD_pair_zero (j : ℕ) : ([(0 : ℝ), 0]).getD j 0 = 0 := by
  rcases j with _ | (_ | j) <;> rfl

theorem timePerAngle_pair_zero (nb : ℕ) :
    timePerAngle [0, 0] [0, 0] nb = List.replicate nb 0 := by
  rw [timePerAngle, histWeighted_zero_weights _ _ _ (fun k => by
    rw [dtPerFrame_pair_zero]; exact getD_pair_zero k), angleEdges_length]
  norm_num

theorem spikesPerAngle_pair_zero (nb : ℕ) :
    spikesPerAngle [] [0, 0] [0, 0] nb = List.replicate nb 0 := by
  rw [spikesPerAngle, histWeighted_zero_weights _ _ _ (fun k => by
    rw [spikesPerFrame_empty_pair]; exact getD_pair_zero k), angleEdges_length]
  norm_num

/-- C1 counterexample: two samples at the same timestamp (zero occupancy
everywhere) and no spikes, with the DEFAULT smoothing window 4: every one of
the 36 bins has zero total occupancy, yet the returned tuning curve is the
number 0 in every bin — the missing-value markers were erased by the
smoothing step, refuting the claim for the default smoothing window. -/
theorem head_direction_rate_smoothed_zero :
    head_direction_rate [] [0, 0] [0, 0] 36 4 =
      .ok (hdCenters 36, List.replicate 36 (FpVal.num 0)) ∧
    timePerAngle [0, 0] [0, 0] 36 = List.replicate 36 0 := by
  refine ⟨?_, timePerAngle_pair_zero 36⟩
  have hc : ([0, 0] : List ℝ).Chain' (· ≤ ·) := by
    norm_num [List.chain'_cons]
  rw [head_direction_rate, if_neg (by simp), if_neg (not_not_intro hc), if_pos (by omega)]
  have hraw : rawTuningCurve [] [0, 0] [0, 0] 36 = List.replicate 36 FpVal.nan := by
    rw [rawTuningCurve, spikesPerAngle_pair_zero, timePerAngle_pair_zero,
      List.zipWith_replicate, min_self]
    have : npDivide 0 0 = FpVal.nan := by
      rw [npDivide, if_pos rfl, if_pos rfl]
    rw [this]
  rw [hraw, moving_average_replicate_nan 36 4 (by omega) (by omega)]

theorem angleEdges_two : angleEdges 2 = [0, Real.pi, 2 * Real.pi] := by
  rw [angleEdges, linspace]
  simp [List.ofFn_succ]
  norm_num

theorem binIndexOf_two_zero : binIndexOf (angleEdges 2) 0 = some 0 := by
  rw [angleEdges_two, binIndexOf]
  rw [if_neg (show ¬(([0, Real.pi, 2 * Real.pi] : List ℝ).length < 2) by norm_num)]
  have hc2 : ¬((0 : ℝ) < ([0, Real.pi, 2 * Real.pi] : List ℝ).getD 0 0 ∨
      ([0, Real.pi, 2 * Real.pi] : List ℝ).getD
        (([0, Real.pi, 2 * Real.pi] : List ℝ).length - 1) 0 < 0) := by
    rw [show ([0, Real.pi, 2 * Real.pi] : List ℝ).getD 0 0 = 0 from rfl,
      show ([0, Real.pi, 2 * Real.pi] : List ℝ).getD
        (([0, Real.pi, 2 * Real.pi] : List ℝ).length - 1) 0 = 2 * Real.pi from rfl]
    rintro (h | h)
    · exact lt_irrefl 0 h
    · exact absurd h (not_lt.2 (by positivity))
  rw [if_neg hc2]
  have hc3 : ¬((0 : ℝ) = ([0, Real.pi, 2 * Real.pi] : List ℝ).getD
      (([0, Real.pi, 2 * Real.pi] : List ℝ).length - 1) 0) := by
    rw [show ([0, Real.pi, 2 * Real.pi] : List ℝ).getD
      (([0, Real.pi, 2 * Real.pi] : List ℝ).length - 1) 0 = 2 * Real.pi from rfl]
    intro h0
    have hp := Real.pi_pos
    linarith
  rw [if_neg hc3]
  have h1 : decide ((0 : ℝ) ≤ 0) = true := decide_eq_true (le_refl 0)
  have h2 : decide (Real.pi ≤ (0 : ℝ)) = false := decide_eq_false (not_le.2 Real.pi_pos)
  have h3 : decide (2 * Real.pi ≤ (0 : ℝ)) = false := decide_eq_false (not_le.2 (by positivity))
  rw [searchsortedRight]
  simp only [List.filter_cons, List.filter_nil, h1, h2, h3]
  simp

/-- C1 witness: the amended statement at spikes `[]`, angles `[0, 0]`,
strictly increasing timestamps `[0, 1]`, 2 bins, no smoothing: bin 1 (the
half-circle `[π, 2π)`) is never visited and its unsmoothed rate is `nan`. -/
theorem head_direction_rate_unsmoothed_nan_witness :
    (rawTuningCurve [] [0, 0] [0, 1] 2).getD 1 (.num 0) = FpVal.nan := by
  have hcle : ([0, 1] : List ℝ).Chain' (· ≤ ·) := by
    norm_num [List.chain'_cons]
  refine head_direction_rate_unsmoothed_nan [] [0, 0] [0, 1] 2 rfl ?_ (hdCenters 2)
    (rawTuningCurve [] [0, 0] [0, 1] 2) ?_ 1 (by omega) ?_
  · norm_num [List.chain'_cons]
  · rw [head_direction_rate, if_neg (by simp), if_neg (not_not_intro hcle), if_neg (by omega)]
  · rw [timePerAngle, histWeighted_getD _ _ _ 1 (by rw [angleEdges_length]; omega)]
    apply Finset.sum_eq_zero
    intro k hk
    simp only [Finset.mem_range] at hk
    have h00 : ([(0 : ℝ), 0]).getD k 0 = 0 := getD_pair_zero k
    rw [h00, binIndexOf_two_zero]
    simp

theorem fpSum_num (l : List FpVal) (h : ∀ v ∈ l, ∃ x, v = FpVal.num x) :
    fpSum l = .num ((l.map FpVal.toR).sum) := by
  induction l with
  | nil => rfl
  | cons a l ih =>
    obtain ⟨x, rfl⟩ := h a (by simp)
    have ih2 := ih (fun v hv => h v (by simp [hv]))
    rw [fpSum] at ih2 ⊢
    rw [List.sum_cons, fpVal_add_def, ih2]
    simp only [List.map_cons, List.sum_cons]
    rfl

theorem zip_filter_snd (A : List ℝ) (T : List FpVal) (h : A.length = T.length) :
    ((A.zip T).filter (fun p => !p.2.isNan)).map Prod.snd = T.filter (fun r => !r.isNan) := by
  induction A generalizing T with
  | nil =>
    cases T with
    | nil => simp
    | cons r T => simp at h
  | cons a A ih =>
    cases T with
    | nil => simp at h
    | cons r T =>
      have h2 : A.length = T.length := by simpa using h
      simp only [List.zip_cons_cons, List.filter_cons]
      cases hnan : (!r.isNan) <;> simp [hnan, ih T h2]

theorem zipWith_map_same {α β γ δ : Type} (f : β → γ → δ) (g : α → β) (h : α → γ)
    (l : List α) :
    List.zipWith f (l.map g) (l.map h) = l.map (fun x => f (g x) (h x)) := by
  induction l with
  | nil => rfl
  | cons a l ih => simp [ih]

theorem exp_term_re (x θ : ℝ) : ((x : ℂ) * Complex.exp (θ * Complex.I)).re = x * Real.cos θ := by
  rw [Complex.exp_mul_I _]
  simp [← Complex.ofReal_cos, ← Complex.ofReal_sin]

theorem exp_term_im (x θ : ℝ) : ((x : ℂ) * Complex.exp (θ * Complex.I)).im = x * Real.sin θ := by
  rw [Complex.exp_mul_I _]
  simp [← Complex.ofReal_cos, ← Complex.ofReal_sin]

theorem abs_list_sum_le (l : List ℂ) : Complex.abs l.sum ≤ (l.map Complex.abs).sum := by
  induction l with
  | nil => simp
  | cons a l ih =>
    simp only [List.sum_cons, List.map_cons]
    calc Complex.abs (a + l.sum) ≤ Complex.abs a + Complex.abs l.sum := Complex.abs.add_le a l.sum
    _ ≤ Complex.abs a + (l.map Complex.abs).sum := by linarith

theorem sum_re_list (l : List (ℝ × FpVal)) :
    ((l.map (fun p => (p.2.toR : ℂ) * Complex.exp (p.1 * Complex.I))).sum).re =
      (l.map (fun p => p.2.toR * Real.cos p.1)).sum := by
  induction l with
  | nil => simp
  | cons a l ih => simp [Complex.add_re, exp_term_re, ih]

theorem sum_im_list (l : List (ℝ × FpVal)) :
    ((l.map (fun p => (p.2.toR : ℂ) * Complex.exp (p.1 * Complex.I))).sum).im =
      (l.map (fun p => p.2.toR * Real.sin p.1)).sum := by
  induction l with
  | nil => simp
  | cons a l ih => simp [Complex.add_im, exp_term_im, ih]

theorem validRateSum_nonneg (tc : List FpVal)
    (hwf : ∀ r ∈ tc, r = FpVal.nan ∨ ∃ x, 0 ≤ x ∧ r = FpVal.num x) :
    0 ≤ validRateSum tc := by
  apply List.sum_nonneg
  intro y hy
  obtain ⟨r, hr, rfl⟩ := List.mem_map.1 hy
  have hrtc : r ∈ tc := List.mem_of_mem_filter hr
  rcases hwf r hrtc with hnan | ⟨x, hx0, rfl⟩
  · have := (List.mem_filter.1 hr).2
    rw [hnan] at this
    simp [FpVal.isNan] at this
  · simpa [FpVal.toR] using hx0

theorem fpSum_valid_rates (angle_bins : List ℝ) (tc : List FpVal)
    (hlen : angle_bins.length = tc.length)
    (hwf : ∀ r ∈ tc, r = FpVal.nan ∨ ∃ x, 0 ≤ x ∧ r = FpVal.num x) :
    fpSum (((angle_bins.zip tc).filter (fun p => !p.2.isNan)).map Prod.snd) =
      .num (validRateSum tc) := by
  rw [zip_filter_snd angle_bins tc hlen, fpSum_num]
  · rfl
  · intro v hv
    have hvtc := List.mem_of_mem_filter hv
    rcases hwf v hvtc with hnan | ⟨x, -, rfl⟩
    · have hker := (List.mem_filter.1 hv).2
      rw [hnan] at hker
      simp [FpVal.isNan] at hker
    · exact ⟨x, rfl⟩

theorem head_direction_score_defined (angle_bins : List ℝ) (tc : List FpVal)
    (hlen : angle_bins.length = tc.length)
    (hwf : ∀ r ∈ tc, r = FpVal.nan ∨ ∃ x, 0 ≤ x ∧ r = FpVal.num x)
    (hS : validRateSum tc ≠ 0) :
    ∃ p v, head_direction_score angle_bins tc = (.num p, .num v) ∧
      0 ≤ p ∧ p < 2 * Real.pi ∧ 0 ≤ v ∧ v ≤ 1 := by
  have hmem : ∀ q ∈ (angle_bins.zip tc).filter (fun p => !p.2.isNan),
      ∃ x, 0 ≤ x ∧ q.2 = FpVal.num x := by
    intro q hq
    obtain ⟨hzip, hker⟩ := List.mem_filter.1 hq
    obtain ⟨qa, qr⟩ := q
    have hsnd : qr ∈ tc := (List.of_mem_zip hzip).2
    rcases hwf qr hsnd with hnan | hx
    · rw [hnan] at hker
      simp [FpVal.isNan] at hker
    · exact hx
  have hrates := zip_filter_snd angle_bins tc hlen
  have hSnum := fpSum_valid_rates angle_bins tc hlen hwf
  have hSpos : 0 < validRateSum tc :=
    lt_of_le_of_ne (validRateSum_nonneg tc hwf) (Ne.symm hS)
  set vl := (angle_bins.zip tc).filter (fun p => !p.2.isNan) with hvl
  simp only [head_direction_score]
  rw [← hvl]
  rw [if_neg (by rw [hSnum]; intro hcon; exact hS (by simpa using hcon))]
  rw [zipWith_map_same, zipWith_map_same]
  have hrx : fpSum (vl.map (fun p => fpMul p.2 (FpVal.num (Real.cos p.1)))) =
      .num ((vl.map (fun p => p.2.toR * Real.cos p.1)).sum) := by
    rw [fpSum_num]
    · congr 1
      rw [List.map_map]
      congr 1
      apply List.map_congr_left
      intro q hq
      obtain ⟨x, hx0, hxq⟩ := hmem q hq
      simp only [Function.comp_apply]
      rw [hxq]
      rfl
    · intro v hv
      obtain ⟨q, hq, rfl⟩ := List.mem_map.1 hv
      obtain ⟨x, hx0, hxq⟩ := hmem q hq
      rw [hxq]
      exact ⟨x * Real.cos q.1, rfl⟩
  have hry : fpSum (vl.map (fun p => fpMul p.2 (FpVal.num (Real.sin p.1)))) =
      .num ((vl.map (fun p => p.2.toR * Real.sin p.1)).sum) := by
    rw [fpSum_num]
    · congr 1
      rw [List.map_map]
      congr 1
      apply List.map_congr_left
      intro q hq
      obtain ⟨x, hx0, hxq⟩ := hmem q hq
      simp only [Function.comp_apply]
      rw [hxq]
      rfl
    · intro v hv
      obtain ⟨q, hq, rfl⟩ := List.mem_map.1 hv
      obtain ⟨x, hx0, hxq⟩ := hmem q hq
      rw [hxq]
      exact ⟨x * Real.sin q.1, rfl⟩
  rw [hrx, hry, hSnum]
  set RX := (vl.map (fun p => p.2.toR * Real.cos p.1)).sum with hRXdef
  set RY := (vl.map (fun p => p.2.toR * Real.sin p.1)).sum with hRYdef
  have hadd : fpAdd (fpMul (FpVal.num RX) (FpVal.num RX)) (fpMul (FpVal.num RY) (FpVal.num RY)) =
      FpVal.num (RX * RX + RY * RY) := rfl
  have hsqrt : fpSqrt (FpVal.num (RX * RX + RY * RY)) =
      .num (Real.sqrt (RX * RX + RY * RY)) := by
    simp only [fpSqrt]
    rw [if_neg (not_lt.2 (by nlinarith [mul_self_nonneg RX, mul_self_nonneg RY]))]
  have hdivv : fpDiv (FpVal.num (Real.sqrt (RX * RX + RY * RY))) (FpVal.num (validRateSum tc)) =
      .num (Real.sqrt (RX * RX + RY * RY) / validRateSum tc) := by
    simp only [fpDiv]
    rw [if_neg hS]
  have hat : fpAtan2 (FpVal.num RY) (FpVal.num RX) = .num (Complex.arg ⟨RX, RY⟩) := rfl
  rw [hadd, hsqrt, hdivv, hat]
  have habs : Real.sqrt (RX * RX + RY * RY) ≤ validRateSum tc := by
    have hre : ((vl.map (fun p => (p.2.toR : ℂ) * Complex.exp (p.1 * Complex.I))).sum).re = RX :=
      sum_re_list vl
    have him : ((vl.map (fun p => (p.2.toR : ℂ) * Complex.exp (p.1 * Complex.I))).sum).im = RY :=
      sum_im_list vl
    have h1 : Real.sqrt (RX * RX + RY * RY) =
        Complex.abs ((vl.map (fun p => (p.2.toR : ℂ) * Complex.exp (p.1 * Complex.I))).sum) := by
      rw [Complex.abs_apply, Complex.normSq_apply, hre, him]
    rw [h1]
    calc Complex.abs ((vl.map (fun p => (p.2.toR : ℂ) * Complex.exp (p.1 * Complex.I))).sum) ≤
        ((vl.map (fun p => (p.2.toR : ℂ) * Complex.exp (p.1 * Complex.I))).map Complex.abs).sum :=
          abs_list_sum_le _
    _ = (vl.map (fun p => p.2.toR)).sum := by
        rw [List.map_map]
        congr 1
        apply List.map_congr_left
        intro q hq
        obtain ⟨x, hx0, hxq⟩ := hmem q hq
        simp only [Function.comp_apply]
        rw [map_mul, Complex.abs_exp_ofReal_mul_I, Complex.abs_ofReal, mul_one,
          abs_of_nonneg (by rw [hxq]; simpa [FpVal.toR] using hx0)]
    _ = validRateSum tc := by
        rw [show vl.map (fun p => p.2.toR) = (vl.map Prod.snd).map FpVal.toR from by
          rw [List.map_map]; rfl, hrates]
        rfl
  have hv0 : 0 ≤ Real.sqrt (RX * RX + RY * RY) / validRateSum tc := by positivity
  have hv1 : Real.sqrt (RX * RX + RY * RY) / validRateSum tc ≤ 1 := by
    rw [div_le_one hSpos]
    exact habs
  rcases Classical.em (Complex.arg ⟨RX, RY⟩ < 0) with hneg | hneg
  · rw [if_pos (show fpLt (FpVal.num (Complex.arg ⟨RX, RY⟩)) (FpVal.num 0) from hneg)]
    refine ⟨Complex.arg ⟨RX, RY⟩ + 2 * Real.pi,
      Real.sqrt (RX * RX + RY * RY) / validRateSum tc, rfl, ?_, ?_, hv0, hv1⟩
    · have harg := Complex.neg_pi_lt_arg (⟨RX, RY⟩ : ℂ)
      have hp := Real.pi_pos
      linarith
    · linarith
  · rw [if_neg (show ¬ fpLt (FpVal.num (Complex.arg ⟨RX, RY⟩)) (FpVal.num 0) from hneg)]
    refine ⟨Complex.arg ⟨RX, RY⟩,
      Real.sqrt (RX * RX + RY * RY) / validRateSum tc, rfl, not_lt.1 hneg, ?_, hv0, hv1⟩
    have harg := Complex.arg_le_pi (⟨RX, RY⟩ : ℂ)
    have hp := Real.pi_pos
    linarith

/-- C7: confirmed. For equal-length bins and rates whose non-missing entries
are non-negative reals, `head_direction_score` returns `(nan, nan)` exactly
when the non-missing rates sum to zero (including the empty curve);
otherwise it returns finite `(preferred_angle, vector_length)` with the
angle in `[0, 2π)` and the vector length in `[0, 1]`. -/
theorem head_direction_score_spec (angle_bins : List ℝ) (tc : List FpVal)
    (hlen : angle_bins.length = tc.length)
    (hwf : ∀ r ∈ tc, r = FpVal.nan ∨ ∃ x, 0 ≤ x ∧ r = FpVal.num x) :
    (head_direction_score angle_bins tc = (FpVal.nan, FpVal.nan) ↔ validRateSum tc = 0) ∧
    (validRateSum tc ≠ 0 → ∃ p v, head_direction_score angle_bins tc = (.num p, .num v) ∧
      0 ≤ p ∧ p < 2 * Real.pi ∧ 0 ≤ v ∧ v ≤ 1) := by
  constructor
  · constructor
    · intro hsc
      by_contra hS
      obtain ⟨p, v, hpv, -⟩ := head_direction_score_defined angle_bins tc hlen hwf hS
      rw [hsc] at hpv
      simp at hpv
    · intro hS0
      simp only [head_direction_score]
      rw [if_pos (by rw [fpSum_valid_rates angle_bins tc hlen hwf, hS0])]
  · exact head_direction_score_defined angle_bins tc hlen hwf

/-- C7 witness: a single bin at angle 0 with rate 1: the sum is nonzero, so
the score is a defined pair with angle in `[0, 2π)` and length in `[0, 1]`. -/
theorem head_direction_score_spec_witness :
    (head_direction_score [0] [FpVal.num 1] = (FpVal.nan, FpVal.nan) ↔
      validRateSum [FpVal.num 1] = 0) ∧
    (validRateSum [FpVal.num 1] ≠ 0 → ∃ p v,
      head_direction_score [0] [FpVal.num 1] = (.num p, .num v) ∧
      0 ≤ p ∧ p < 2 * Real.pi ∧ 0 ≤ v ∧ v ≤ 1) :=
  head_direction_score_spec [0] [FpVal.num 1] rfl (by
    intro r hr
    simp only [List.mem_singleton] at hr
    rw [hr]
    exact Or.inr ⟨1, by norm_num, rfl⟩)

/-- C8: corrected. For position/time arrays of at least two samples (the
shape `np.gradient` accepts), `get_alignment_offset` returns exactly 0.0
without raising whenever fewer than 10 samples move faster than `min_speed`
— in particular when the speed never exceeds the threshold. With fewer than
two samples `np.gradient` itself raises, so the unrestricted claim fails
(see the counterexample). -/
theorem get_alignment_offset_insufficient (angles x y t : List ℝ) (ms : ℝ)
    (hx2 : 2 ≤ x.length) (hy2 : 2 ≤ y.length) (hxt : x.length = t.length)
    (hyt : y.length = t.length) :
    (((List.zipWith hypot (npGradient x t) (npGradient y t)).map
        (fun s => decide (ms < s))).count true < 10 →
      get_alignment_offset angles x y t ms = .ok 0) ∧
    ((∀ s ∈ List.zipWith hypot (npGradient x t) (npGradient y t), s ≤ ms) →
      get_alignment_offset angles x y t ms = .ok 0) := by
  constructor
  · intro hcount
    simp only [get_alignment_offset]
    rw [if_neg (by omega), if_pos hcount]
  · intro hall
    have hmask : ((List.zipWith hypot (npGradient x t) (npGradient y t)).map
        (fun s => decide (ms < s))) =
        List.replicate (List.zipWith hypot (npGradient x t) (npGradient y t)).length false := by
      rw [List.eq_replicate_iff]
      refine ⟨by simp, ?_⟩
      intro b hb
      obtain ⟨sv, hsv, rfl⟩ := List.mem_map.1 hb
      exact decide_eq_false (not_lt.2 (hall sv hsv))
    have hcount : ((List.zipWith hypot (npGradient x t) (npGradient y t)).map
        (fun s => decide (ms < s))).count true < 10 := by
      rw [hmask]
      simp [List.count_replicate]
    simp only [get_alignment_offset]
    rw [if_neg (by omega), if_pos hcount]

/-- C8 counterexample: a single-sample input has fewer than 10 qualifying
samples, but instead of returning 0.0 the code raises: `np.gradient`
requires at least two samples. -/
theorem get_alignment_offset_short_input_errors :
    get_alignment_offset [0] [0] [0] [0] 2 = .error .gradientShape := by
  rw [get_alignment_offset, if_pos (Or.inl (by norm_num))]

theorem npGradient_pair_const : npGradient [0, 0] [0, 1] = [0, 0] := by
  simp [npGradient, List.ofFn_succ]

/-- C8 witness: a stationary two-sample animal (positions constant, speeds
all zero, below the threshold 2) yields offset exactly 0.0. -/
theorem get_alignment_offset_insufficient_witness :
    get_alignment_offset [0, 0] [0, 0] [0, 0] [0, 1] 2 = .ok 0 := by
  apply (get_alignment_offset_insufficient [0, 0] [0, 0] [0, 0] [0, 1] 2
    (by norm_num) (by norm_num) rfl rfl).2
  intro s hs
  rw [npGradient_pair_const] at hs
  have hz : hypot 0 0 = 0 := by
    rw [hypot]
    norm_num
  simp only [List.zipWith_cons_cons, List.zipWith_nil_right, hz] at hs
  simp only [List.mem_cons, List.not_mem_nil, or_false] at hs
  rcases hs with rfl | rfl <;> norm_num

end
